import Mathlib

/-!
# Verification of the throttled in-memory store (`store/mem.go`)

This file gives a shallow embedding of the `memStore` type of the
`throttled` repository and proves the specification claims about it.

The embedding is value-level and sequential:

* Go's `*int64` counter cells are modelled by the `Int` values they point
  to (the code performs no arithmetic on counters, only load, store and
  compare-and-swap, so no 64-bit wrap-around can arise).
* The bounded variant's `lru.Cache` (external dependency
  `hashicorp/golang-lru`) is modelled by a capacity plus a list of
  key/value entries ordered most-recently-used first.
* The unbounded variant's `map[string]*int64` is modelled by an
  association list looked up by first match.
* Each Go method returning `(result, error)` becomes a Lean function
  returning the result paired with an `Option StoreError` (with `none`
  playing the role of Go's `nil` error) together with the post-state.

Concurrency for the first-writer-wins property of `SetNX` is treated
separately at the end of the file by an interleaving small-step relation
over the program counters of the racing goroutines.
-/

abbrev Key := String

/-- Model of the external `lru.Cache` (hashicorp/golang-lru) as used by
`memStore`: a fixed capacity plus the entries ordered most-recently-used
first.  Only `Get` and `Add` are exercised by `mem.go`. -/
structure LruCache where
  capacity : Nat
  entries : List (Key × Int)
  deriving DecidableEq

/-- Model of `lru.Cache.Get`: on a hit the entry is moved to the front
(the recency touch) and its value returned; on a miss the cache is
unchanged. -/
def LruCache.get (c : LruCache) (k : Key) : Option Int × LruCache :=
  match c.entries.find? (fun e => e.1 == k) with
  | none => (none, c)
  | some e =>
      (some e.2, { c with entries := e :: c.entries.eraseP (fun x => x.1 == k) })

/-- Model of `lru.Cache.Add`: insert (or update and re-order) the key at
the most-recently-used position, evicting from the least-recently-used
end whatever exceeds the capacity. -/
def LruCache.add (c : LruCache) (k : Key) (v : Int) : LruCache :=
  { c with entries := ((k, v) :: c.entries.eraseP (fun x => x.1 == k)).take c.capacity }

/-- Model of the external constructor `lru.New`: fails on a non-positive
size, otherwise returns an empty cache of that capacity. -/
def lruNew (size : Int) : Except String LruCache :=
  if size ≤ 0 then .error "Must provide a positive size"
  else .ok { capacity := size.toNat, entries := [] }

/-- The distinguished no-such-key error (`ErrNoSuchKey` of the `store`
package); `Option.none` in an error position models Go's `nil` error. -/
inductive StoreError where
  | noSuchKey
  deriving DecidableEq

/-- The `memStore` struct: exactly one of the LRU cache `keys` (bounded
mode) and the map `m` (unbounded mode) is in use, which the Go code
encodes by the other field being `nil` and we encode by a sum. -/
inductive MemStore where
  | bounded (keys : LruCache)
  | unbounded (m : List (Key × Int))
  deriving DecidableEq

/-- The private helper `memStore.get(key, locked)`: looks the key up in
whichever container is active, returning the counter cell (here: its
value) and a found flag, plus the post-state (the LRU lookup touches
recency).  The `locked` argument only controls locking in Go and has no
semantic content here. -/
def MemStore.get (ms : MemStore) (key : Key) : Option Int × MemStore :=
  match ms with
  | .bounded keys =>
      let r := keys.get key
      (r.1, .bounded r.2)
  | .unbounded m => ((m.find? (fun e => e.1 == key)).map (·.2), .unbounded m)

/-- `memStore.Get`: return the current value, or `(0, ErrNoSuchKey)` when
the key is absent. -/
def MemStore.Get (ms : MemStore) (key : Key) : (Int × Option StoreError) × MemStore :=
  match ms.get key with
  | (none, ms1) => ((0, some .noSuchKey), ms1)
  | (some v, ms1) => ((v, none), ms1)

/-- `memStore.SetNX`: optimistic existence check, then (under the mutex)
a re-check, then insertion of a freshly owned cell holding `value`.  The
sequential embedding keeps both checks to mirror the code. -/
def MemStore.SetNX (ms : MemStore) (key : Key) (value : Int) :
    (Bool × Option StoreError) × MemStore :=
  match ms.get key with
  | (some _, ms1) => ((false, none), ms1)
  | (none, ms1) =>
    match ms1.get key with
    | (some _, ms2) => ((false, none), ms2)
    | (none, ms2) =>
      match ms2 with
      | .bounded keys => ((true, none), .bounded (keys.add key value))
      | .unbounded m => ((true, none), .unbounded ((key, value) :: m))

/-- Overwrite the counter cell of `key` in place (the effect of a
successful `atomic.CompareAndSwapInt64` through the stored pointer): the
entry keeps its position, only its value changes. -/
def MemStore.setValue (ms : MemStore) (key : Key) (v : Int) : MemStore :=
  match ms with
  | .bounded keys =>
      .bounded { keys with
        entries := keys.entries.map (fun e => if e.1 == key then (e.1, v) else e) }
  | .unbounded m => .unbounded (m.map (fun e => if e.1 == key then (e.1, v) else e))

/-- `memStore.CompareAndSwap`: `(false, ErrNoSuchKey)` when the key is
absent; otherwise an atomic compare-and-swap on the counter cell with a
`nil` error. -/
def MemStore.CompareAndSwap (ms : MemStore) (key : Key) (old new : Int) :
    (Bool × Option StoreError) × MemStore :=
  match ms.get key with
  | (none, ms1) => ((false, some .noSuchKey), ms1)
  | (some v, ms1) =>
      if v == old then ((true, none), ms1.setValue key new)
      else ((false, none), ms1)

/-- `NewMemStore`: bounded LRU mode for `maxKeys > 0` (propagating any
constructor error of `lru.New`), unbounded map mode otherwise. -/
def NewMemStore (maxKeys : Int) : Except String MemStore :=
  if maxKeys > 0 then
    match lruNew maxKeys with
    | .error err => .error err
    | .ok keys => .ok (.bounded keys)
  else
    .ok (.unbounded [])

/-- The observable contents of a store: the value currently associated
with a key, independent of recency bookkeeping. -/
def MemStore.lookup (ms : MemStore) (key : Key) : Option Int :=
  match ms with
  | .bounded keys => (keys.entries.find? (fun e => e.1 == key)).map (·.2)
  | .unbounded m => (m.find? (fun e => e.1 == key)).map (·.2)

/-- Well-formedness of a store state: every store produced by
`NewMemStore` has a positive capacity in bounded mode (enforced by
`lru.New`). -/
def MemStore.WF : MemStore → Prop
  | .bounded keys => 0 < keys.capacity
  | .unbounded _ => True

/-- The store state produced by the insertion branch of `SetNX`. -/
def MemStore.insertNew (ms : MemStore) (k : Key) (value : Int) : MemStore :=
  match ms with
  | .bounded keys => .bounded (keys.add k value)
  | .unbounded m => .unbounded ((k, value) :: m)

/-- Inserting a list of key/value pairs one `SetNX` at a time. -/
def insertAll (kvs : List (Key × Int)) (ms : MemStore) : MemStore :=
  kvs.foldl (fun s kv => (s.SetNX kv.1 kv.2).2) ms

/-! ### Interleaving model of racing `SetNX` calls

For the first-writer-wins property, `n` goroutines concurrently call
`SetNX` on the same previously-unset key, goroutine `i` supplying the
value `v i`.  The shared state keeps the key's entry (recorded as the
index of the goroutine whose value was installed; the installed counter
value is then `v i`), the holder of the `memStore` mutex, and each
goroutine's program counter through the body of `SetNX`.  Each step of
the relation is one of the atomic shared-memory accesses performed by
the Go code; steps of different goroutines interleave arbitrarily, and
the reader/writer mutex is modelled by the `acquire` step requiring a
free mutex (modelling the unlocked optimistic read as an unconstrained
atomic step only adds interleavings, which is sound for this safety
property). -/

/-- Program counter of one goroutine executing the body of `SetNX`. -/
inductive PC where
  | start : PC
  | lock : PC
  | check : PC
  | insert : PC
  | unlockT : PC
  | unlockF : PC
  | done : Bool → PC
  deriving DecidableEq

/-- Shared state of `n` goroutines racing `SetNX` on one fresh key:
the key's entry, the mutex owner, and every goroutine's counter. -/
structure RaceState (n : Nat) where
  entry : Option (Fin n)
  owner : Option (Fin n)
  pc : Fin n → PC

/-- Initial state: no entry for the key, mutex free, every goroutine
about to run its optimistic unlocked lookup. -/
def RaceState.init (n : Nat) : RaceState n :=
  { entry := none, owner := none, pc := fun _ => PC.start }

/-- One atomic step of the race.  `readHit`/`readMiss` are the
optimistic lookup (`ms.get(key, false)`), `acquire` is `ms.Lock()`,
`checkHit`/`checkMiss` the re-check under the mutex, `doInsert` the
insertion of the new counter cell, and `releaseT`/`releaseF` the
deferred `ms.Unlock()` before returning `true` resp. `false`. -/
inductive RaceStep (n : Nat) : RaceState n → RaceState n → Prop where
  | readHit (s : RaceState n) (i : Fin n) :
      s.pc i = PC.start → s.entry ≠ none →
      RaceStep n s { s with pc := Function.update s.pc i (PC.done false) }
  | readMiss (s : RaceState n) (i : Fin n) :
      s.pc i = PC.start → s.entry = none →
      RaceStep n s { s with pc := Function.update s.pc i PC.lock }
  | acquire (s : RaceState n) (i : Fin n) :
      s.pc i = PC.lock → s.owner = none →
      RaceStep n s { s with owner := some i, pc := Function.update s.pc i PC.check }
  | checkHit (s : RaceState n) (i : Fin n) :
      s.pc i = PC.check → s.entry ≠ none →
      RaceStep n s { s with pc := Function.update s.pc i PC.unlockF }
  | checkMiss (s : RaceState n) (i : Fin n) :
      s.pc i = PC.check → s.entry = none →
      RaceStep n s { s with pc := Function.update s.pc i PC.insert }
  | doInsert (s : RaceState n) (i : Fin n) :
      s.pc i = PC.insert →
      RaceStep n s { s with entry := some i, pc := Function.update s.pc i PC.unlockT }
  | releaseT (s : RaceState n) (i : Fin n) :
      s.pc i = PC.unlockT →
      RaceStep n s { s with owner := none, pc := Function.update s.pc i (PC.done true) }
  | releaseF (s : RaceState n) (i : Fin n) :
      s.pc i = PC.unlockF →
      RaceStep n s { s with owner := none, pc := Function.update s.pc i (PC.done false) }

/-- Inductive invariant of the race: mutex ownership matches the
program counters, the entry is installed exactly by the goroutine that
reached its insertion, a goroutine about to insert has seen the key
absent under the mutex, and a goroutine that returned `false` saw a
non-empty entry. -/
def RaceInv (n : Nat) (s : RaceState n) : Prop :=
  (∀ i, (s.pc i = PC.check ∨ s.pc i = PC.insert ∨ s.pc i = PC.unlockT ∨
      s.pc i = PC.unlockF) → s.owner = some i) ∧
  (∀ i, s.entry = some i ↔ (s.pc i = PC.unlockT ∨ s.pc i = PC.done true)) ∧
  (∀ i, s.pc i = PC.insert → s.entry = none) ∧
  (∀ i, s.pc i = PC.unlockF → s.entry ≠ none) ∧
  (∀ i, s.pc i = PC.done false → s.entry ≠ none)

/-! ## Basic lemmas about lookups and the recency touch -/

/-- Moving the first entry matching `k` to the front of an association
list does not change any first-match lookup. -/
theorem find?_moveToFront (l : List (Key × Int)) (k k' : Key) (e : Key × Int)
    (h : l.find? (fun x => x.1 == k) = some e) :
    (e :: l.eraseP (fun x => x.1 == k)).find? (fun x => x.1 == k') =
      l.find? (fun x => x.1 == k') := by
  induction l with
  | nil => simp at h
  | cons x xs ih =>
    cases hx : (x.1 == k) with
    | true =>
      rw [List.find?_cons, hx] at h
      simp only at h
      obtain rfl : x = e := by injection h
      rw [List.eraseP_cons, hx, cond_true]
    | false =>
      rw [List.find?_cons, hx] at h
      simp only at h
      rw [List.eraseP_cons, hx, cond_false]
      have he : (e.1 == k) = true := @List.find?_some _ (fun x => x.1 == k) e xs h
      cases hek : (e.1 == k') with
      | true =>
        have h1 : e.1 = k := by simpa using he
        have h2 : e.1 = k' := by simpa using hek
        rw [List.find?_cons, hek]
        simp only
        rw [List.find?_cons]
        cases hxx : (x.1 == k') with
        | true =>
          exfalso
          have hx2 : x.1 = k' := by simpa using hxx
          rw [← h2, h1] at hx2
          simp [hx2] at hx
        | false =>
          simp only
          rw [show xs.find? (fun x => x.1 == k') = some e from by rw [← h2, h1]; exact h]
      | false =>
        rw [List.find?_cons, hek]
        simp only
        rw [List.find?_cons, List.find?_cons]
        cases hxx : (x.1 == k') with
        | true => simp only
        | false =>
          simp only
          have := ih h
          rwa [List.find?_cons, hek] at this

/-- The found flag and value of the internal `get` agree with the
abstract contents. -/
theorem MemStore.get_fst (ms : MemStore) (k : Key) : (ms.get k).1 = ms.lookup k := by
  cases ms with
  | bounded keys =>
    simp only [MemStore.get, MemStore.lookup, LruCache.get]
    cases h : keys.entries.find? (fun e => e.1 == k) <;> simp [h]
  | unbounded m => rfl

/-- On a miss the internal `get` leaves the store untouched. -/
theorem MemStore.get_miss (ms : MemStore) (k : Key) (h : ms.lookup k = none) :
    ms.get k = (none, ms) := by
  cases ms with
  | bounded keys =>
    have hf : keys.entries.find? (fun e => e.1 == k) = none := by
      simpa [MemStore.lookup] using h
    simp [MemStore.get, LruCache.get, hf]
  | unbounded m =>
    have hf : m.find? (fun e => e.1 == k) = none := by
      simpa [MemStore.lookup] using h
    simp [MemStore.get, hf]

/-- On a hit the internal `get` returns the stored value. -/
theorem MemStore.get_hit (ms : MemStore) (k : Key) (v : Int) (h : ms.lookup k = some v) :
    ms.get k = (some v, (ms.get k).2) := by
  have h1 : (ms.get k).1 = some v := by rw [MemStore.get_fst, h]
  cases hg : ms.get k with
  | mk o s =>
    rw [hg] at h1
    simp only at h1
    rw [h1]

/-- The recency touch performed by the internal `get` never changes the
contents of the store. -/
theorem MemStore.lookup_get (ms : MemStore) (k k' : Key) :
    ((ms.get k).2).lookup k' = ms.lookup k' := by
  cases ms with
  | bounded keys =>
    simp only [MemStore.get, LruCache.get]
    cases h : keys.entries.find? (fun e => e.1 == k) with
    | none => simp [MemStore.lookup, h]
    | some e =>
      simp only [MemStore.lookup]
      rw [find?_moveToFront keys.entries k k' e h]
  | unbounded m => rfl

/-! ## Specification lemmas for the public operations -/

/-- `Get` on an absent key returns `(0, ErrNoSuchKey)` and leaves the
store untouched. -/
theorem MemStore.Get_miss (ms : MemStore) (k : Key) (h : ms.lookup k = none) :
    ms.Get k = ((0, some StoreError.noSuchKey), ms) := by
  simp [MemStore.Get, MemStore.get_miss ms k h]

/-- `Get` on a present key returns its value with a `nil` error. -/
theorem MemStore.Get_hit (ms : MemStore) (k : Key) (v : Int) (h : ms.lookup k = some v) :
    ms.Get k = ((v, none), (ms.get k).2) := by
  have hg := MemStore.get_hit ms k v h
  simp only [MemStore.Get]
  rw [hg]

/-- `Get` never changes the contents of the store. -/
theorem MemStore.Get_lookup (ms : MemStore) (k k' : Key) :
    ((ms.Get k).2).lookup k' = ms.lookup k' := by
  cases h : ms.lookup k with
  | none => rw [MemStore.Get_miss ms k h]
  | some v => rw [MemStore.Get_hit ms k v h, MemStore.lookup_get]

/-- `SetNX` on an absent key creates the entry and reports
`(true, nil)`. -/
theorem MemStore.SetNX_miss (ms : MemStore) (k : Key) (value : Int)
    (h : ms.lookup k = none) :
    ms.SetNX k value = ((true, none), ms.insertNew k value) := by
  cases ms with
  | bounded keys =>
    have hf : keys.entries.find? (fun e => e.1 == k) = none := by
      simpa [MemStore.lookup] using h
    simp [MemStore.SetNX, MemStore.get, LruCache.get, MemStore.insertNew, hf]
  | unbounded m =>
    have hf : m.find? (fun e => e.1 == k) = none := by
      simpa [MemStore.lookup] using h
    simp [MemStore.SetNX, MemStore.get, MemStore.insertNew, hf]

/-- `SetNX` on a present key reports `(false, nil)` and only performs the
recency touch of the optimistic lookup. -/
theorem MemStore.SetNX_hit (ms : MemStore) (k : Key) (value : Int) (v : Int)
    (h : ms.lookup k = some v) :
    ms.SetNX k value = ((false, none), (ms.get k).2) := by
  have hg := MemStore.get_hit ms k v h
  simp only [MemStore.SetNX]
  rw [hg]

/-- The inserted key is retrievable afterwards (positive capacity keeps
the fresh most-recently-used entry from being evicted immediately). -/
theorem MemStore.lookup_insertNew_self (ms : MemStore) (k : Key) (value : Int)
    (hwf : ms.WF) :
    (ms.insertNew k value).lookup k = some value := by
  cases ms with
  | bounded keys =>
    obtain ⟨c, hc⟩ : ∃ c, keys.capacity = c + 1 :=
      ⟨keys.capacity - 1, by have := hwf; simp [MemStore.WF] at this; omega⟩
    simp [MemStore.insertNew, MemStore.lookup, LruCache.add, hc, List.find?_cons]
  | unbounded m => simp [MemStore.insertNew, MemStore.lookup, List.find?_cons]

/-- `find?` commutes with mapping a function that fixes keys. -/
theorem find?_map_keyFix (l : List (Key × Int)) (k' : Key) (f : Key × Int → Key × Int)
    (hf : ∀ e, (f e).1 = e.1) :
    (l.map f).find? (fun e => e.1 == k') = (l.find? (fun e => e.1 == k')).map f := by
  induction l with
  | nil => rfl
  | cons x xs ih =>
    simp only [List.map_cons, List.find?_cons, hf x]
    cases hx : (x.1 == k') <;> simp [ih]

/-- After `setValue k v`, the key `k` holds `v` (provided it was
present). -/
theorem MemStore.lookup_setValue_self (ms : MemStore) (k : Key) (v w : Int)
    (h : ms.lookup k = some w) :
    (ms.setValue k v).lookup k = some v := by
  have key_fix : ∀ e : Key × Int,
      ((fun e => if e.1 == k then (e.1, v) else e) e).1 = e.1 := by
    intro e
    by_cases hek : (e.1 == k) = true <;> simp [hek]
  cases ms with
  | bounded keys =>
    obtain ⟨e, he, hev⟩ : ∃ e, keys.entries.find? (fun x => x.1 == k) = some e ∧ e.2 = w := by
      simp only [MemStore.lookup, Option.map_eq_some'] at h
      obtain ⟨e, he, hev⟩ := h
      exact ⟨e, he, hev⟩
    have hk : (e.1 == k) = true := @List.find?_some _ (fun x => x.1 == k) e keys.entries he
    have hke : e.1 = k := by simpa using hk
    simp only [MemStore.setValue, MemStore.lookup]
    rw [find?_map_keyFix _ k _ key_fix, he]
    simp [hk, hke]
  | unbounded m =>
    obtain ⟨e, he, hev⟩ : ∃ e, m.find? (fun x => x.1 == k) = some e ∧ e.2 = w := by
      simp only [MemStore.lookup, Option.map_eq_some'] at h
      obtain ⟨e, he, hev⟩ := h
      exact ⟨e, he, hev⟩
    have hk : (e.1 == k) = true := @List.find?_some _ (fun x => x.1 == k) e m he
    have hke : e.1 = k := by simpa using hk
    simp only [MemStore.setValue, MemStore.lookup]
    rw [find?_map_keyFix _ k _ key_fix, he]
    simp [hk, hke]

/-- `setValue k v` does not change the value of any other key. -/
theorem MemStore.lookup_setValue_other (ms : MemStore) (k k' : Key) (v : Int)
    (h : k' ≠ k) :
    (ms.setValue k v).lookup k' = ms.lookup k' := by
  have key_fix : ∀ e : Key × Int,
      ((fun e => if e.1 == k then (e.1, v) else e) e).1 = e.1 := by
    intro e
    by_cases hek : (e.1 == k) = true <;> simp [hek]
  have main : ∀ l : List (Key × Int),
      ((l.map (fun e => if e.1 == k then (e.1, v) else e)).find?
          (fun e => e.1 == k')).map (·.2) =
        (l.find? (fun e => e.1 == k')).map (·.2) := by
    intro l
    rw [find?_map_keyFix _ k' _ key_fix]
    cases hfe : l.find? (fun e => e.1 == k') with
    | none => rfl
    | some e =>
      have hk : (e.1 == k') = true := @List.find?_some _ (fun x => x.1 == k') e l hfe
      have hke : e.1 = k' := by simpa using hk
      have hne : e.1 ≠ k := by
        rw [hke]
        exact h
      simp [hne]
  cases ms with
  | bounded keys => simpa [MemStore.setValue, MemStore.lookup] using main keys.entries
  | unbounded m => simpa [MemStore.setValue, MemStore.lookup] using main m

/-- `CompareAndSwap` on an absent key returns `(false, ErrNoSuchKey)` and
leaves the store untouched. -/
theorem MemStore.CAS_miss (ms : MemStore) (k : Key) (old new : Int)
    (h : ms.lookup k = none) :
    ms.CompareAndSwap k old new = ((false, some StoreError.noSuchKey), ms) := by
  simp [MemStore.CompareAndSwap, MemStore.get_miss ms k h]

/-- `CompareAndSwap` on a present key: the swap decision is exact
equality of the current value with `old`. -/
theorem MemStore.CAS_hit (ms : MemStore) (k : Key) (old new v : Int)
    (h : ms.lookup k = some v) :
    ms.CompareAndSwap k old new =
      if v == old then ((true, none), ((ms.get k).2).setValue k new)
      else ((false, none), (ms.get k).2) := by
  have hg := MemStore.get_hit ms k v h
  simp only [MemStore.CompareAndSwap]
  rw [hg]

/-! ## Claims -/

/-- C1: `SetNX(key, value)` returns `(true, nil)` and installs `value`
as `key`'s counter if and only if `key` has no current entry; if an
entry already exists it returns `(false, nil)` and the store contents
(including the existing value for `key`) are left unchanged; in neither
outcome is a non-nil error returned. -/
theorem SetNX_creates_iff_absent (ms : MemStore) (key : Key) (value : Int)
    (hwf : ms.WF) :
    ((ms.SetNX key value).1 = (true, none) ↔ ms.lookup key = none) ∧
    (ms.lookup key = none → ((ms.SetNX key value).2).lookup key = some value) ∧
    (ms.lookup key ≠ none →
      (ms.SetNX key value).1 = (false, none) ∧
      ∀ k, ((ms.SetNX key value).2).lookup k = ms.lookup k) ∧
    (ms.SetNX key value).1.2 = none := by
  cases h : ms.lookup key with
  | none =>
    rw [MemStore.SetNX_miss ms key value h]
    exact ⟨by simp, fun _ => MemStore.lookup_insertNew_self ms key value hwf,
      fun hc => absurd rfl hc, rfl⟩
  | some v =>
    rw [MemStore.SetNX_hit ms key value v h]
    exact ⟨by simp, by simp, fun _ => ⟨rfl, fun k => MemStore.lookup_get ms key k⟩, rfl⟩

/-- Witness for C1 at a concrete input. -/
theorem SetNX_creates_iff_absent_witness :
    ((MemStore.unbounded []).SetNX "k" 7).1 = (true, none) ∧
    (((MemStore.unbounded []).SetNX "k" 7).2).lookup "k" = some 7 :=
  ⟨(SetNX_creates_iff_absent (.unbounded []) "k" 7 trivial).1.mpr rfl,
   (SetNX_creates_iff_absent (.unbounded []) "k" 7 trivial).2.1 rfl⟩

/-- C2: for a key with an entry of value `v`, `CompareAndSwap(key, old,
new)` swaps iff `v = old`; on success the post-value is `new`, on
failure it is unchanged; the error is nil in both cases. -/
theorem CompareAndSwap_exact (ms : MemStore) (key : Key) (old new v : Int)
    (h : ms.lookup key = some v) :
    (ms.CompareAndSwap key old new).1.2 = none ∧
    ((ms.CompareAndSwap key old new).1.1 = true ↔ v = old) ∧
    ((ms.CompareAndSwap key old new).1.1 = true →
      ((ms.CompareAndSwap key old new).2).lookup key = some new) ∧
    ((ms.CompareAndSwap key old new).1.1 = false →
      ((ms.CompareAndSwap key old new).2).lookup key = some v) := by
  rw [MemStore.CAS_hit ms key old new v h]
  by_cases hvo : v = old
  · have hb : (v == old) = true := by simpa using hvo
    rw [if_pos hb]
    refine ⟨rfl, ⟨fun _ => hvo, fun _ => rfl⟩, fun _ => ?_,
      fun hh => Bool.noConfusion hh⟩
    have h2 : ((ms.get key).2).lookup key = some v := by
      rw [MemStore.lookup_get]
      exact h
    exact MemStore.lookup_setValue_self _ key new v h2
  · have hb : ¬ ((v == old) = true) := by simpa using hvo
    rw [if_neg hb]
    refine ⟨rfl, ⟨fun hh => Bool.noConfusion hh, fun hh => absurd hh hvo⟩,
      fun hh => Bool.noConfusion hh, fun _ => ?_⟩
    rw [MemStore.lookup_get]
    exact h

/-- Witness for C2 at a concrete input. -/
theorem CompareAndSwap_exact_witness :
    ((MemStore.unbounded [("k", 5)]).CompareAndSwap "k" 5 9).1.2 = none ∧
    (((MemStore.unbounded [("k", 5)]).CompareAndSwap "k" 5 9).2).lookup "k" = some 9 :=
  ⟨(CompareAndSwap_exact (.unbounded [("k", 5)]) "k" 5 9 5 rfl).1,
   (CompareAndSwap_exact (.unbounded [("k", 5)]) "k" 5 9 5 rfl).2.2.1 rfl⟩

/-- C3 (counterexample): on a store where `"missing"` was never set,
`CompareAndSwap("missing", 0, 1)` does NOT return `(false, nil)`: the
error component is the non-nil `ErrNoSuchKey`. -/
theorem CompareAndSwap_missing_nil_error_refuted :
    NewMemStore 0 = Except.ok (MemStore.unbounded []) ∧
    ((MemStore.unbounded []).CompareAndSwap "missing" 0 1).1 =
      (false, some StoreError.noSuchKey) ∧
    ¬ ((MemStore.unbounded []).CompareAndSwap "missing" 0 1).1.2 = none := by
  exact ⟨rfl, rfl, fun hh => Option.noConfusion hh⟩

/-- C3 (amended): on a store where `"missing"` has no entry,
`CompareAndSwap("missing", 0, 1)` returns `(false, ErrNoSuchKey)` and
leaves the store unchanged. -/
theorem CompareAndSwap_missing_notFound (ms : MemStore)
    (h : ms.lookup "missing" = none) :
    ms.CompareAndSwap "missing" 0 1 = ((false, some StoreError.noSuchKey), ms) :=
  MemStore.CAS_miss ms "missing" 0 1 h

/-- Witness for the amended C3 at a concrete input. -/
theorem CompareAndSwap_missing_notFound_witness :
    (MemStore.unbounded []).CompareAndSwap "missing" 0 1 =
      ((false, some StoreError.noSuchKey), MemStore.unbounded []) :=
  CompareAndSwap_missing_notFound (.unbounded []) rfl

/-- C4: `CompareAndSwap` on a key with no current entry fails with the
non-nil no-such-key error, distinct from the `(false, nil)` result used
when the key exists with a non-matching value. -/
theorem CompareAndSwap_absent_notFound (ms : MemStore) (key : Key) (old new : Int)
    (h : ms.lookup key = none) :
    ms.CompareAndSwap key old new = ((false, some StoreError.noSuchKey), ms) ∧
    (ms.CompareAndSwap key old new).1.2 ≠ none := by
  have h1 := MemStore.CAS_miss ms key old new h
  refine ⟨h1, ?_⟩
  rw [h1]
  simp

/-- Witness for C4 at a concrete input. -/
theorem CompareAndSwap_absent_notFound_witness :
    (MemStore.unbounded [("other", 3)]).CompareAndSwap "gone" 0 1 =
      ((false, some StoreError.noSuchKey), MemStore.unbounded [("other", 3)]) :=
  (CompareAndSwap_absent_notFound (.unbounded [("other", 3)]) "gone" 0 1 (by decide)).1

/-- C5: `Get` on a key with no entry returns the no-such-key error (not
a silent zero value); on a key with an entry it returns the current
value with a nil error and does not modify the contents. -/
theorem Get_absent_notFound_present_value (ms : MemStore) (key : Key) :
    (ms.lookup key = none →
      (ms.Get key).1 = (0, some StoreError.noSuchKey) ∧ (ms.Get key).2 = ms) ∧
    (∀ v, ms.lookup key = some v →
      (ms.Get key).1 = (v, none) ∧
      ∀ k, ((ms.Get key).2).lookup k = ms.lookup k) := by
  constructor
  · intro h
    rw [MemStore.Get_miss ms key h]
    exact ⟨rfl, rfl⟩
  · intro v h
    rw [MemStore.Get_hit ms key v h]
    exact ⟨rfl, fun k => MemStore.lookup_get ms key k⟩

/-- Witness for C5 at concrete inputs. -/
theorem Get_absent_notFound_present_value_witness :
    ((MemStore.unbounded []).Get "missing").1 = (0, some StoreError.noSuchKey) ∧
    ((MemStore.unbounded [("k", 3)]).Get "k").1 = (3, none) :=
  ⟨((Get_absent_notFound_present_value (.unbounded []) "missing").1 rfl).1,
   ((Get_absent_notFound_present_value (.unbounded [("k", 3)]) "k").2 3 rfl).1⟩

/-- C8 (counterexample): construction with a non-positive capacity does
not fail: `NewMemStore (-1)` succeeds with a nil error, returning the
unbounded store. -/
theorem NewMemStore_invalid_capacity_no_failure :
    NewMemStore (-1) = Except.ok (MemStore.unbounded []) := rfl

/-- C8 (amended): `NewMemStore maxKeys` returns a bounded store of
capacity `maxKeys` when `maxKeys > 0` and an unbounded store when
`maxKeys ≤ 0`; construction never fails, since a non-positive value
selects unbounded mode rather than requesting bounded mode. -/
theorem NewMemStore_modes (maxKeys : Int) :
    (0 < maxKeys →
      NewMemStore maxKeys =
        Except.ok (MemStore.bounded { capacity := maxKeys.toNat, entries := [] })) ∧
    (maxKeys ≤ 0 → NewMemStore maxKeys = Except.ok (MemStore.unbounded [])) := by
  constructor
  · intro h
    have h2 : ¬ maxKeys ≤ 0 := by omega
    simp [NewMemStore, lruNew, h, h2]
  · intro h
    have h2 : ¬ 0 < maxKeys := by omega
    simp [NewMemStore, h2]

/-- Witness for the amended C8 at concrete inputs. -/
theorem NewMemStore_modes_witness :
    NewMemStore 5 = Except.ok (MemStore.bounded { capacity := 5, entries := [] }) ∧
    NewMemStore 0 = Except.ok (MemStore.unbounded []) :=
  ⟨(NewMemStore_modes 5).1 (by decide), (NewMemStore_modes 0).2 (by decide)⟩

/-- C10: `NewMemStore` returns a (non-nil) store together with a nil
error for every integer `maxKeys`, including zero and negative values. -/
theorem NewMemStore_never_fails (maxKeys : Int) :
    ∃ ms : MemStore, NewMemStore maxKeys = Except.ok ms := by
  by_cases h : 0 < maxKeys
  · refine ⟨.bounded { capacity := maxKeys.toNat, entries := [] }, ?_⟩
    have h2 : ¬ maxKeys ≤ 0 := by omega
    simp [NewMemStore, lruNew, h, h2]
  · refine ⟨.unbounded [], ?_⟩
    simp [NewMemStore, h]

/-! ## Unbounded mode: no eviction (towards C7) -/

/-- Lookup on a cons cell of the unbounded map. -/
theorem MemStore.lookup_unbounded_cons (a : Key) (b : Int) (m : List (Key × Int))
    (k : Key) :
    (MemStore.unbounded ((a, b) :: m)).lookup k =
      if a == k then some b else (MemStore.unbounded m).lookup k := by
  simp only [MemStore.lookup, List.find?_cons]
  cases h : (a == k) <;> simp

/-- In unbounded mode a `SetNX` keeps the store unbounded, preserves
every present key, and installs an absent target key. -/
theorem MemStore.SetNX_unbounded_state (m : List (Key × Int)) (key : Key) (value : Int) :
    ∃ m2, ((MemStore.unbounded m).SetNX key value).2 = .unbounded m2 ∧
      (∀ k v, (MemStore.unbounded m).lookup k = some v →
        (MemStore.unbounded m2).lookup k = some v) ∧
      ((MemStore.unbounded m).lookup key = none →
        (MemStore.unbounded m2).lookup key = some value) := by
  cases hkey : (MemStore.unbounded m).lookup key with
  | some w =>
    refine ⟨m, ?_, fun k v hv => hv, fun hn => ?_⟩
    · rw [MemStore.SetNX_hit _ key value w hkey]
      rfl
    · exact Option.noConfusion hn
  | none =>
    refine ⟨(key, value) :: m, ?_, ?_, ?_⟩
    · rw [MemStore.SetNX_miss _ key value hkey]
      rfl
    · intro k v hv
      rw [MemStore.lookup_unbounded_cons]
      cases hak : (key == k) with
      | true =>
        exfalso
        have : key = k := by simpa using hak
        rw [this, hv] at hkey
        exact Option.noConfusion hkey
      | false => simpa using hv
    · rw [MemStore.lookup_unbounded_cons]
      simp

/-- Folding `SetNX` over any list of pairs keeps the unbounded store
unbounded and preserves every key already present. -/
theorem insertAll_unbounded_mono (kvs : List (Key × Int)) (m : List (Key × Int)) :
    ∃ m2, insertAll kvs (.unbounded m) = .unbounded m2 ∧
      ∀ k v, (MemStore.unbounded m).lookup k = some v →
        (MemStore.unbounded m2).lookup k = some v := by
  induction kvs generalizing m with
  | nil => exact ⟨m, rfl, fun k v hv => hv⟩
  | cons kv rest ih =>
    obtain ⟨m1, hm1, hpres, _⟩ := MemStore.SetNX_unbounded_state m kv.1 kv.2
    obtain ⟨m2, hm2, hpres2⟩ := ih m1
    refine ⟨m2, ?_, fun k v hv => hpres2 k v (hpres k v hv)⟩
    show insertAll rest ((MemStore.unbounded m).SetNX kv.1 kv.2).2 = .unbounded m2
    rw [hm1, hm2]

/-- Inserting distinct fresh keys into an unbounded store leaves each of
them retrievable with its inserted value. -/
theorem insertAll_unbounded_fresh (kvs : List (Key × Int)) (m : List (Key × Int))
    (hnd : (kvs.map Prod.fst).Nodup)
    (hfresh : ∀ kv ∈ kvs, (MemStore.unbounded m).lookup kv.1 = none) :
    ∀ kv ∈ kvs, (insertAll kvs (.unbounded m)).lookup kv.1 = some kv.2 := by
  induction kvs generalizing m with
  | nil => intro kv hkv; cases hkv
  | cons kv rest ih =>
    obtain ⟨m1, hm1, hpres, hinst⟩ := MemStore.SetNX_unbounded_state m kv.1 kv.2
    have hkv1 : (MemStore.unbounded m1).lookup kv.1 = some kv.2 :=
      hinst (hfresh kv (by simp))
    have hstep : insertAll (kv :: rest) (.unbounded m) = insertAll rest (.unbounded m1) := by
      show insertAll rest ((MemStore.unbounded m).SetNX kv.1 kv.2).2 = _
      rw [hm1]
    have hm1eq : m1 = (kv.1, kv.2) :: m := by
      rcases hkey : (MemStore.unbounded m).lookup kv.1 with _ | w
      · have := hfresh kv (by simp)
        rw [MemStore.SetNX_miss _ kv.1 kv.2 this] at hm1
        simpa [MemStore.insertNew] using hm1.symm
      · exact absurd (hfresh kv (by simp)) (by rw [hkey]; simp)
    intro kv2 hkv2
    rcases List.mem_cons.mp hkv2 with rfl | hmem
    · rw [hstep]
      obtain ⟨m2, hm2, hpres2⟩ := insertAll_unbounded_mono rest m1
      rw [hm2]
      exact hpres2 kv2.1 kv2.2 hkv1
    · have hnd' : (rest.map Prod.fst).Nodup := by
        simpa using hnd.of_cons
      have hne : kv.1 ∉ rest.map Prod.fst := by
        have := hnd
        simp only [List.map_cons, List.nodup_cons] at this
        exact this.1
      have hfresh' : ∀ kv3 ∈ rest, (MemStore.unbounded m1).lookup kv3.1 = none := by
        intro kv3 hkv3
        rw [hm1eq, MemStore.lookup_unbounded_cons]
        have hkne : (kv.1 == kv3.1) = false := by
          have : kv.1 ≠ kv3.1 := by
            intro e
            exact hne (e ▸ List.mem_map_of_mem Prod.fst hkv3)
          simpa using this
        rw [hkne]
        simp only [Bool.false_eq_true, if_false]
        exact hfresh kv3 (by simp [hkv3])
      rw [hstep]
      exact ih m1 hnd' hfresh' kv2 hmem

/-- C7: for a store constructed with `NewMemStore maxKeys` where
`maxKeys ≤ 0`, after inserting any finite number of distinct keys via
`SetNX`, every one of those keys is still retrievable via `Get` with its
inserted value: unbounded mode never evicts. -/
theorem unbounded_never_evicts (maxKeys : Int) (hmk : maxKeys ≤ 0) (ms0 : MemStore)
    (h0 : NewMemStore maxKeys = Except.ok ms0) (kvs : List (Key × Int))
    (hnd : (kvs.map Prod.fst).Nodup) :
    ∀ kv ∈ kvs,
      (insertAll kvs ms0).lookup kv.1 = some kv.2 ∧
      ((insertAll kvs ms0).Get kv.1).1 = (kv.2, none) := by
  have hms : ms0 = .unbounded [] := by
    have h2 : ¬ 0 < maxKeys := by omega
    simp only [NewMemStore, h2, if_false, gt_iff_lt] at h0
    exact (Except.ok.injEq _ _).mp h0.symm
  subst hms
  intro kv hkv
  have hlook : (insertAll kvs (.unbounded [])).lookup kv.1 = some kv.2 := by
    refine insertAll_unbounded_fresh kvs [] hnd ?_ kv hkv
    intro kv2 _
    rfl
  refine ⟨hlook, ?_⟩
  rw [MemStore.Get_hit _ kv.1 kv.2 hlook]

/-- Witness for C7 at a concrete input. -/
theorem unbounded_never_evicts_witness :
    (insertAll [("a", 1), ("b", 2)] (MemStore.unbounded [])).lookup "a" = some 1 ∧
    ((insertAll [("a", 1), ("b", 2)] (MemStore.unbounded [])).Get "a").1 = (1, none) :=
  unbounded_never_evicts 0 (by decide) (.unbounded []) rfl [("a", 1), ("b", 2)]
    (by decide) ("a", 1) (by decide)

/-! ## Bounded mode: LRU eviction at capacity (towards C6) -/

/-- A key outside an association list's key set is never found. -/
theorem find?_eq_none_of_not_mem_keys (l : List (Key × Int)) (k : Key)
    (h : k ∉ l.map Prod.fst) :
    l.find? (fun e => e.1 == k) = none := by
  rw [List.find?_eq_none]
  intro x hx hxk
  have hx1 : x.1 = k := by simpa using hxk
  exact h (hx1 ▸ List.mem_map_of_mem Prod.fst hx)

/-- With no duplicate keys, `find?` returns exactly the member entry. -/
theorem find?_of_nodup_mem (l : List (Key × Int)) (k : Key) (v : Int)
    (hnd : (l.map Prod.fst).Nodup) (hmem : (k, v) ∈ l) :
    l.find? (fun e => e.1 == k) = some (k, v) := by
  induction l with
  | nil => cases hmem
  | cons x xs ih =>
    rcases List.mem_cons.mp hmem with hx | hx
    · subst hx
      rw [List.find?_cons]
      simp
    · have hnd1 : x.1 ∉ xs.map Prod.fst := by
        simp only [List.map_cons, List.nodup_cons] at hnd
        exact hnd.1
      have hnd2 : (xs.map Prod.fst).Nodup := by
        simp only [List.map_cons, List.nodup_cons] at hnd
        exact hnd.2
      have hxk : (x.1 == k) = false := by
        have hkmem : k ∈ xs.map Prod.fst := by
          simpa using List.mem_map_of_mem Prod.fst hx
        have : x.1 ≠ k := fun e => hnd1 (e ▸ hkmem)
        simpa using this
      rw [List.find?_cons, hxk]
      exact ih hnd2 hx

/-- Prepending to a list already truncated at the capacity and
re-truncating is the same as truncating the extended list. -/
theorem take_cons_take (x : Key × Int) (l : List (Key × Int)) (c : Nat) :
    (x :: l.take (c + 1)).take (c + 1) = (x :: l).take (c + 1) := by
  rw [List.take_succ_cons, List.take_succ_cons, List.take_take,
    Nat.min_eq_left (Nat.le_succ c)]

/-- Folding `SetNX` over distinct keys starting from an empty bounded
store keeps exactly the `c + 1` most recently inserted entries, newest
first. -/
theorem insertAll_bounded_entries (c : Nat) (kvs : List (Key × Int))
    (hnd : (kvs.map Prod.fst).Nodup) :
    insertAll kvs (.bounded { capacity := c + 1, entries := [] }) =
      .bounded { capacity := c + 1, entries := kvs.reverse.take (c + 1) } := by
  induction kvs using List.reverseRecOn with
  | nil => rfl
  | append_singleton ks kv ih =>
    rw [List.map_append] at hnd
    have h3 := List.nodup_append.mp hnd
    have hndks : (ks.map Prod.fst).Nodup := h3.1
    have hfreshk : kv.1 ∉ ks.map Prod.fst := by
      intro hmem
      exact h3.2.2 hmem (by simp)
    have hstep : insertAll (ks ++ [kv]) (.bounded { capacity := c + 1, entries := [] }) =
        ((insertAll ks (.bounded { capacity := c + 1, entries := [] })).SetNX kv.1 kv.2).2 := by
      simp [insertAll, List.foldl_append]
    rw [hstep, ih hndks]
    have hmiss : (MemStore.bounded
        { capacity := c + 1, entries := ks.reverse.take (c + 1) }).lookup kv.1 = none := by
      simp only [MemStore.lookup]
      rw [find?_eq_none_of_not_mem_keys]
      · rfl
      · intro hmem
        apply hfreshk
        obtain ⟨e, he, he1⟩ := List.mem_map.mp hmem
        have he2 : e ∈ ks := List.mem_reverse.mp (List.mem_of_mem_take he)
        exact he1 ▸ List.mem_map_of_mem Prod.fst he2
    rw [MemStore.SetNX_miss _ kv.1 kv.2 hmiss]
    have herase : (ks.reverse.take (c + 1)).eraseP (fun x => x.1 == kv.1) =
        ks.reverse.take (c + 1) := by
      refine List.eraseP_of_forall_not ?_
      intro a ha hak
      have ha2 : a ∈ ks := List.mem_reverse.mp (List.mem_of_mem_take ha)
      have ha1 : a.1 = kv.1 := by simpa using hak
      exact hfreshk (ha1 ▸ List.mem_map_of_mem Prod.fst ha2)
    simp only [MemStore.insertNew, LruCache.add, herase]
    rw [take_cons_take]
    simp [List.reverse_append]

/-- C6: with `NewMemStore K` for `K > 0`, after inserting `K + 1`
distinct keys via `SetNX`, exactly the `K` most recent keys are
retrievable via `Get` (their key set is precisely the inserted keys
minus the first); the least-recently-touched (first-inserted) key is
absent, `Get` on it returns the no-such-key error, and `SetNX` on it
succeeds again with `created = true`. -/
theorem bounded_eviction (maxKeys : Int) (hmk : 0 < maxKeys) (ms0 : MemStore)
    (h0 : NewMemStore maxKeys = Except.ok ms0) (hd : Key × Int) (tl : List (Key × Int))
    (hlen : tl.length = maxKeys.toNat)
    (hnd : ((hd :: tl).map Prod.fst).Nodup) :
    ((insertAll (hd :: tl) ms0).Get hd.1).1 = (0, some StoreError.noSuchKey) ∧
    (∀ v, ((insertAll (hd :: tl) ms0).SetNX hd.1 v).1 = (true, none)) ∧
    (∀ kv ∈ tl, ((insertAll (hd :: tl) ms0).Get kv.1).1 = (kv.2, none)) ∧
    (∀ k : Key, (insertAll (hd :: tl) ms0).lookup k ≠ none ↔ k ∈ tl.map Prod.fst) := by
  have hms : ms0 = .bounded { capacity := maxKeys.toNat, entries := [] } := by
    have h2 : ¬ maxKeys ≤ 0 := by omega
    simp only [NewMemStore, gt_iff_lt, hmk, if_true, lruNew, h2, if_false] at h0
    exact (Except.ok.injEq _ _).mp h0.symm
  subst hms
  obtain ⟨c, hc⟩ : ∃ c, maxKeys.toNat = c + 1 := ⟨maxKeys.toNat - 1, by omega⟩
  rw [hc] at hlen
  rw [hc]
  have hrev : (hd :: tl).reverse.take (c + 1) = tl.reverse := by
    have hlt : tl.reverse.length = c + 1 := by simpa using hlen
    rw [List.reverse_cons, ← hlt, List.take_left]
  have hfold := insertAll_bounded_entries c (hd :: tl) hnd
  rw [hrev] at hfold
  rw [hfold]
  simp only [List.map_cons, List.nodup_cons] at hnd
  have hh1 : hd.1 ∉ tl.map Prod.fst := hnd.1
  have hh2 : (tl.map Prod.fst).Nodup := hnd.2
  have hrevnd : (tl.reverse.map Prod.fst).Nodup := by
    rw [List.map_reverse]
    exact List.nodup_reverse.mpr hh2
  have hlook_hd :
      (MemStore.bounded { capacity := c + 1, entries := tl.reverse }).lookup hd.1 = none := by
    simp only [MemStore.lookup]
    rw [find?_eq_none_of_not_mem_keys]
    · rfl
    · rw [List.map_reverse, List.mem_reverse]
      exact hh1
  have hlook : ∀ kv ∈ tl,
      (MemStore.bounded { capacity := c + 1, entries := tl.reverse }).lookup kv.1 =
        some kv.2 := by
    intro kv hkv
    simp only [MemStore.lookup]
    rw [find?_of_nodup_mem tl.reverse kv.1 kv.2 hrevnd (List.mem_reverse.mpr hkv)]
    rfl
  refine ⟨?_, ?_, ?_, ?_⟩
  · rw [MemStore.Get_miss _ hd.1 hlook_hd]
  · intro v
    rw [MemStore.SetNX_miss _ hd.1 v hlook_hd]
  · intro kv hkv
    rw [MemStore.Get_hit _ kv.1 kv.2 (hlook kv hkv)]
  · intro k
    constructor
    · intro hne
      by_contra hk
      apply hne
      simp only [MemStore.lookup]
      rw [find?_eq_none_of_not_mem_keys]
      · rfl
      · rw [List.map_reverse, List.mem_reverse]
        exact hk
    · intro hk
      obtain ⟨e, he, rfl⟩ := List.mem_map.mp hk
      rw [hlook e he]
      simp

/-- Witness for C6 at a concrete input (capacity 2, three keys). -/
theorem bounded_eviction_witness :
    ((insertAll [("a", 1), ("b", 2), ("c", 3)]
        (MemStore.bounded { capacity := 2, entries := [] })).Get "a").1 =
      (0, some StoreError.noSuchKey) ∧
    ((insertAll [("a", 1), ("b", 2), ("c", 3)]
        (MemStore.bounded { capacity := 2, entries := [] })).Get "b").1 = (2, none) ∧
    ((insertAll [("a", 1), ("b", 2), ("c", 3)]
        (MemStore.bounded { capacity := 2, entries := [] })).SetNX "a" 9).1 =
      (true, none) := by
  have h := bounded_eviction 2 (by decide)
    (.bounded { capacity := (2 : Int).toNat, entries := [] }) rfl ("a", 1)
    [("b", 2), ("c", 3)] (by decide) (by decide)
  exact ⟨h.1, h.2.2.1 ("b", 2) (by decide), h.2.1 9⟩

/-! ## First-writer-wins under concurrency (C9) -/

/-- The invariant holds initially. -/
theorem RaceInv_init (n : Nat) : RaceInv n (RaceState.init n) := by
  refine ⟨?_, ?_, ?_, ?_, ?_⟩ <;> intro i <;> simp [RaceState.init]

/-- The invariant is preserved by every step of any goroutine. -/
theorem RaceInv_step {n : Nat} {s s2 : RaceState n} (hinv : RaceInv n s)
    (hstep : RaceStep n s s2) : RaceInv n s2 := by
  obtain ⟨hmx, hen, hpre, hulf, hdf⟩ := hinv
  cases hstep with
  | readHit i hpc hne =>
    refine ⟨fun j hj => ?_, fun j => ?_, fun j hj => ?_, fun j hj => ?_, fun j hj => ?_⟩ <;>
      rcases eq_or_ne j i with rfl | hji
    · simp only [Function.update_same] at hj
      rcases hj with h | h | h | h <;> exact PC.noConfusion h
    · simp only [Function.update_noteq hji] at hj
      exact hmx j hj
    · simp only [Function.update_same]
      constructor
      · intro hE
        have h2 := (hen j).mp hE
        rw [hpc] at h2
        rcases h2 with h | h <;> exact PC.noConfusion h
      · intro h2
        rcases h2 with h | h
        · exact PC.noConfusion h
        · exact absurd h (by simp)
    · simp only [Function.update_noteq hji]
      exact hen j
    · simp only [Function.update_same] at hj
      exact PC.noConfusion hj
    · simp only [Function.update_noteq hji] at hj
      exact hpre j hj
    · simp only [Function.update_same] at hj
      exact PC.noConfusion hj
    · simp only [Function.update_noteq hji] at hj
      exact hulf j hj
    · exact hne
    · simp only [Function.update_noteq hji] at hj
      exact hdf j hj
  | readMiss i hpc hE =>
    refine ⟨fun j hj => ?_, fun j => ?_, fun j hj => ?_, fun j hj => ?_, fun j hj => ?_⟩ <;>
      rcases eq_or_ne j i with rfl | hji
    · simp only [Function.update_same] at hj
      rcases hj with h | h | h | h <;> exact PC.noConfusion h
    · simp only [Function.update_noteq hji] at hj
      exact hmx j hj
    · simp only [Function.update_same, hE]
      constructor
      · intro h
        exact Option.noConfusion h
      · intro h2
        rcases h2 with h | h <;> exact PC.noConfusion h
    · simp only [Function.update_noteq hji]
      exact hen j
    · exact hE
    · exact hE
    · simp only [Function.update_same] at hj
      exact PC.noConfusion hj
    · simp only [Function.update_noteq hji] at hj
      exact hulf j hj
    · simp only [Function.update_same] at hj
      exact PC.noConfusion hj
    · simp only [Function.update_noteq hji] at hj
      exact hdf j hj
  | acquire i hpc hO =>
    refine ⟨fun j hj => ?_, fun j => ?_, fun j hj => ?_, fun j hj => ?_, fun j hj => ?_⟩ <;>
      rcases eq_or_ne j i with rfl | hji
    · rfl
    · simp only [Function.update_noteq hji] at hj
      have h2 := hmx j hj
      rw [hO] at h2
      exact Option.noConfusion h2
    · simp only [Function.update_same]
      constructor
      · intro hEn
        have h2 := (hen j).mp hEn
        rw [hpc] at h2
        rcases h2 with h | h <;> exact PC.noConfusion h
      · intro h2
        rcases h2 with h | h <;> exact PC.noConfusion h
    · simp only [Function.update_noteq hji]
      exact hen j
    · simp only [Function.update_same] at hj
      exact PC.noConfusion hj
    · simp only [Function.update_noteq hji] at hj
      exact hpre j hj
    · simp only [Function.update_same] at hj
      exact PC.noConfusion hj
    · simp only [Function.update_noteq hji] at hj
      exact hulf j hj
    · simp only [Function.update_same] at hj
      exact PC.noConfusion hj
    · simp only [Function.update_noteq hji] at hj
      exact hdf j hj
  | checkHit i hpc hne =>
    refine ⟨fun j hj => ?_, fun j => ?_, fun j hj => ?_, fun j hj => ?_, fun j hj => ?_⟩ <;>
      rcases eq_or_ne j i with rfl | hji
    · exact hmx j (Or.inl hpc)
    · simp only [Function.update_noteq hji] at hj
      exact hmx j hj
    · simp only [Function.update_same]
      constructor
      · intro hEn
        have h2 := (hen j).mp hEn
        rw [hpc] at h2
        rcases h2 with h | h <;> exact PC.noConfusion h
      · intro h2
        rcases h2 with h | h <;> exact PC.noConfusion h
    · simp only [Function.update_noteq hji]
      exact hen j
    · simp only [Function.update_same] at hj
      exact PC.noConfusion hj
    · simp only [Function.update_noteq hji] at hj
      exact hpre j hj
    · exact hne
    · simp only [Function.update_noteq hji] at hj
      exact hulf j hj
    · simp only [Function.update_same] at hj
      exact PC.noConfusion hj
    · simp only [Function.update_noteq hji] at hj
      exact hdf j hj
  | checkMiss i hpc hE =>
    refine ⟨fun j hj => ?_, fun j => ?_, fun j hj => ?_, fun j hj => ?_, fun j hj => ?_⟩ <;>
      rcases eq_or_ne j i with rfl | hji
    · exact hmx j (Or.inl hpc)
    · simp only [Function.update_noteq hji] at hj
      exact hmx j hj
    · simp only [Function.update_same, hE]
      constructor
      · intro h
        exact Option.noConfusion h
      · intro h2
        rcases h2 with h | h <;> exact PC.noConfusion h
    · simp only [Function.update_noteq hji]
      exact hen j
    · exact hE
    · exact hE
    · simp only [Function.update_same] at hj
      exact PC.noConfusion hj
    · simp only [Function.update_noteq hji] at hj
      exact hulf j hj
    · simp only [Function.update_same] at hj
      exact PC.noConfusion hj
    · simp only [Function.update_noteq hji] at hj
      exact hdf j hj
  | doInsert i hpc =>
    have hE := hpre i hpc
    have hOi := hmx i (Or.inr (Or.inl hpc))
    refine ⟨fun j hj => ?_, fun j => ?_, fun j hj => ?_, fun j hj => ?_, fun j hj => ?_⟩ <;>
      rcases eq_or_ne j i with rfl | hji
    · exact hOi
    · simp only [Function.update_noteq hji] at hj
      exact hmx j hj
    · simp only [Function.update_same]
      simp
    · simp only [Function.update_noteq hji]
      constructor
      · intro h
        injection h with h2
        exact absurd h2.symm hji
      · intro h2
        have h3 := (hen j).mpr h2
        rw [hE] at h3
        exact Option.noConfusion h3
    · simp only [Function.update_same] at hj
      exact PC.noConfusion hj
    · simp only [Function.update_noteq hji] at hj
      have h2 := hmx j (Or.inr (Or.inl hj))
      rw [hOi] at h2
      injection h2 with h3
      exact absurd h3.symm hji
    · exact fun hc => Option.noConfusion hc
    · exact fun hc => Option.noConfusion hc
    · exact fun hc => Option.noConfusion hc
    · exact fun hc => Option.noConfusion hc
  | releaseT i hpc =>
    have hOi := hmx i (Or.inr (Or.inr (Or.inl hpc)))
    refine ⟨fun j hj => ?_, fun j => ?_, fun j hj => ?_, fun j hj => ?_, fun j hj => ?_⟩ <;>
      rcases eq_or_ne j i with rfl | hji
    · simp only [Function.update_same] at hj
      rcases hj with h | h | h | h <;> exact PC.noConfusion h
    · simp only [Function.update_noteq hji] at hj
      have h2 := hmx j hj
      rw [hOi] at h2
      injection h2 with h3
      exact absurd h3.symm hji
    · simp only [Function.update_same]
      simp [(hen j).mpr (Or.inl hpc)]
    · simp only [Function.update_noteq hji]
      exact hen j
    · simp only [Function.update_same] at hj
      exact PC.noConfusion hj
    · simp only [Function.update_noteq hji] at hj
      exact hpre j hj
    · simp only [Function.update_same] at hj
      exact PC.noConfusion hj
    · simp only [Function.update_noteq hji] at hj
      exact hulf j hj
    · simp only [Function.update_same] at hj
      exact absurd hj (by simp)
    · simp only [Function.update_noteq hji] at hj
      exact hdf j hj
  | releaseF i hpc =>
    have hOi := hmx i (Or.inr (Or.inr (Or.inr hpc)))
    refine ⟨fun j hj => ?_, fun j => ?_, fun j hj => ?_, fun j hj => ?_, fun j hj => ?_⟩ <;>
      rcases eq_or_ne j i with rfl | hji
    · simp only [Function.update_same] at hj
      rcases hj with h | h | h | h <;> exact PC.noConfusion h
    · simp only [Function.update_noteq hji] at hj
      have h2 := hmx j hj
      rw [hOi] at h2
      injection h2 with h3
      exact absurd h3.symm hji
    · simp only [Function.update_same]
      constructor
      · intro hEn
        have h2 := (hen j).mp hEn
        rw [hpc] at h2
        rcases h2 with h | h <;> exact PC.noConfusion h
      · intro h2
        rcases h2 with h | h
        · exact PC.noConfusion h
        · exact absurd h (by simp)
    · simp only [Function.update_noteq hji]
      exact hen j
    · simp only [Function.update_same] at hj
      exact PC.noConfusion hj
    · simp only [Function.update_noteq hji] at hj
      exact hpre j hj
    · simp only [Function.update_same] at hj
      exact absurd hj (by simp)
    · simp only [Function.update_noteq hji] at hj
      exact hulf j hj
    · exact hulf j hpc
    · simp only [Function.update_noteq hji] at hj
      exact hdf j hj

/-- The invariant holds in every reachable state of the race. -/
theorem RaceInv_reachable {n : Nat} {s : RaceState n}
    (h : Relation.ReflTransGen (RaceStep n) (RaceState.init n) s) : RaceInv n s := by
  induction h with
  | refl => exact RaceInv_init n
  | tail h1 h2 ih => exact RaceInv_step ih h2

/-- C9: in every interleaved execution of `n` goroutines racing `SetNX`
on the same never-set key that runs until all calls have returned,
exactly one goroutine observes `created = true`, the other `n - 1`
observe `created = false`, and the key's entry holds the value supplied
by the winning call (so a subsequent `Get` returns it). -/
theorem SetNX_race_first_writer_wins (n : Nat) (v : Fin n → Int) (hn : 0 < n)
    (s : RaceState n)
    (hreach : Relation.ReflTransGen (RaceStep n) (RaceState.init n) s)
    (hdone : ∀ i, ∃ b, s.pc i = PC.done b) :
    ∃ i, s.pc i = PC.done true ∧ s.entry = some i ∧
      Option.map v s.entry = some (v i) ∧
      ∀ j, j ≠ i → s.pc j = PC.done false := by
  obtain ⟨hmx, hen, hpre, hulf, hdf⟩ := RaceInv_reachable hreach
  cases hE : s.entry with
  | none =>
    exfalso
    obtain ⟨b, hb⟩ := hdone ⟨0, hn⟩
    cases b with
    | true =>
      have h2 := (hen ⟨0, hn⟩).mpr (Or.inr hb)
      rw [hE] at h2
      exact Option.noConfusion h2
    | false => exact hdf ⟨0, hn⟩ hb hE
  | some i =>
    have hpci := (hen i).mp hE
    obtain ⟨b, hb⟩ := hdone i
    have hbt : s.pc i = PC.done true := by
      rcases hpci with h1 | h1
      · rw [hb] at h1
        exact PC.noConfusion h1
      · exact h1
    refine ⟨i, hbt, rfl, rfl, ?_⟩
    intro j hj
    obtain ⟨bj, hbj⟩ := hdone j
    cases bj with
    | false => exact hbj
    | true =>
      have h2 := (hen j).mpr (Or.inr hbj)
      rw [hE] at h2
      injection h2 with h3
      exact absurd h3.symm hj

/-- Two program-counter maps of a single goroutine agreeing at `0` are
equal. -/
theorem race1_pc_ext (f g : Fin 1 → PC) (h : f 0 = g 0) : f = g :=
  funext fun j => by rw [Fin.fin_one_eq_zero j]; exact h

/-- Witness for C9: a concrete complete execution with one goroutine. -/
theorem SetNX_race_first_writer_wins_witness :
    ∃ i : Fin 1,
      (RaceState.mk (some 0) none (fun _ => PC.done true) : RaceState 1).pc i =
        PC.done true ∧
      (RaceState.mk (some 0) none (fun _ => PC.done true) : RaceState 1).entry = some i ∧
      Option.map (fun _ => (7 : Int))
        (RaceState.mk (some 0) none (fun _ => PC.done true) : RaceState 1).entry =
        some 7 ∧
      ∀ j, j ≠ i →
        (RaceState.mk (some 0) none (fun _ => PC.done true) : RaceState 1).pc j =
          PC.done false := by
  refine SetNX_race_first_writer_wins 1 (fun _ => (7 : Int)) Nat.one_pos _ ?_ ?_
  · have t1 : RaceStep 1 (RaceState.init 1) (⟨none, none, fun _ => PC.lock⟩ : RaceState 1) := by
      have e : ({ RaceState.init 1 with
          pc := Function.update (RaceState.init 1).pc 0 PC.lock }) =
          (⟨none, none, fun _ => PC.lock⟩ : RaceState 1) :=
        congrArg (RaceState.mk none none) (race1_pc_ext _ _ rfl)
      exact e ▸ RaceStep.readMiss (RaceState.init 1) 0 rfl rfl
    have t2 : RaceStep 1 (⟨none, none, fun _ => PC.lock⟩ : RaceState 1)
        (⟨none, some 0, fun _ => PC.check⟩ : RaceState 1) := by
      have e : ({ (⟨none, none, fun _ => PC.lock⟩ : RaceState 1) with
          owner := some 0,
          pc := Function.update (fun _ => PC.lock) 0 PC.check }) =
          (⟨none, some 0, fun _ => PC.check⟩ : RaceState 1) :=
        congrArg (RaceState.mk none (some 0)) (race1_pc_ext _ _ rfl)
      exact e ▸ RaceStep.acquire (⟨none, none, fun _ => PC.lock⟩ : RaceState 1) 0 rfl rfl
    have t3 : RaceStep 1 (⟨none, some 0, fun _ => PC.check⟩ : RaceState 1)
        (⟨none, some 0, fun _ => PC.insert⟩ : RaceState 1) := by
      have e : ({ (⟨none, some 0, fun _ => PC.check⟩ : RaceState 1) with
          pc := Function.update (fun _ => PC.check) 0 PC.insert }) =
          (⟨none, some 0, fun _ => PC.insert⟩ : RaceState 1) :=
        congrArg (RaceState.mk none (some 0)) (race1_pc_ext _ _ rfl)
      exact e ▸ RaceStep.checkMiss (⟨none, some 0, fun _ => PC.check⟩ : RaceState 1) 0 rfl rfl
    have t4 : RaceStep 1 (⟨none, some 0, fun _ => PC.insert⟩ : RaceState 1)
        (⟨some 0, some 0, fun _ => PC.unlockT⟩ : RaceState 1) := by
      have e : ({ (⟨none, some 0, fun _ => PC.insert⟩ : RaceState 1) with
          entry := some 0,
          pc := Function.update (fun _ => PC.insert) 0 PC.unlockT }) =
          (⟨some 0, some 0, fun _ => PC.unlockT⟩ : RaceState 1) :=
        congrArg (RaceState.mk (some 0) (some 0)) (race1_pc_ext _ _ rfl)
      exact e ▸ RaceStep.doInsert (⟨none, some 0, fun _ => PC.insert⟩ : RaceState 1) 0 rfl
    have t5 : RaceStep 1 (⟨some 0, some 0, fun _ => PC.unlockT⟩ : RaceState 1)
        (⟨some 0, none, fun _ => PC.done true⟩ : RaceState 1) := by
      have e : ({ (⟨some 0, some 0, fun _ => PC.unlockT⟩ : RaceState 1) with
          owner := none,
          pc := Function.update (fun _ => PC.unlockT) 0 (PC.done true) }) =
          (⟨some 0, none, fun _ => PC.done true⟩ : RaceState 1) :=
        congrArg (RaceState.mk (some 0) none) (race1_pc_ext _ _ rfl)
      exact e ▸ RaceStep.releaseT (⟨some 0, some 0, fun _ => PC.unlockT⟩ : RaceState 1) 0 rfl
    exact Relation.ReflTransGen.head t1 (Relation.ReflTransGen.head t2
      (Relation.ReflTransGen.head t3 (Relation.ReflTransGen.head t4
      (Relation.ReflTransGen.head t5 Relation.ReflTransGen.refl))))
  · intro i
    exact ⟨true, rfl⟩
